import Mathlib

/-!
Verification of the Wiktionary entry-extraction engine (`src/lookup.rs`).

The engine receives a parsed HTML tree (built from the page fetched over the
network by the out-of-scope I/O layer), locates the `French` language region,
splits it into subsections at `h3`/`h4` headings, and parses each subsection
into pronunciation, gender, adjective forms and meanings, assembling a `Word`
record.

Shallow embedding conventions:
- An HTML node (`tl::Node`) is a tag with a name, an attribute list and
  children, or a raw text node.  A document (`tl::VDom`) is the list of its
  top-level nodes.
- Rust `Option`/`Result` map to `Option`/`Except`.  A Rust panic (the engine
  has one reachable panic site, the `0..children.len() - 1` underflow in
  `get_adj_form_from_section`) is modelled by the distinguished error value
  `LookupErr.panic`, which no `lookup.rs` code catches.
- `&str::len` is a UTF-8 byte count, modelled by `utf8Length` on char lists.
- The `regex` crate pattern `^(.*) \((.*)\)$` used by `shorten_meaning` is
  modelled arithmetically: `.` matches any character except a newline, both
  anchors bind to the whole string, and the greedy first group makes the
  match split the string at the last occurrence of the two-character
  substring consisting of a space and an opening parenthesis.
-/

namespace WikiLookup

/-- An HTML node as exposed by the `tl` parser: an element tag (name,
attributes in document order, children) or a raw text node.  `tl`'s
`Node::Comment` never matches a selector nor yields children in this code
path, so it is not represented. -/
inductive Node where
  | tag (name : String) (attrs : List (String × Option String)) (children : List Node)
  | raw (data : String)

/-- `Node::as_tag().is_some()`. -/
def Node.isTag : Node → Bool
  | .tag .. => true
  | .raw _ => false

/-- The tag name of an element node (`HTMLTag::name`); `""` on a text node,
which is only consulted behind an `isTag` test. -/
def Node.tagName : Node → String
  | .tag name _ _ => name
  | .raw _ => ""

/-- Splitting a string at a separator character (`str::split` for a one-
character pattern), implemented on the character list so that concrete
documents evaluate by kernel reduction. -/
def splitOnCharAux (sep : Char) : List Char → List Char → List String
  | [], acc => [String.mk acc.reverse]
  | c :: cs, acc =>
    if c = sep then String.mk acc.reverse :: splitOnCharAux sep cs []
    else splitOnCharAux sep cs (c :: acc)

/-- `str::split(sep)` collected to a list. -/
def splitOnChar (sep : Char) (s : String) : List String := splitOnCharAux sep s.data []

/-- `str::trim`: drop whitespace from both ends. -/
def trimChars (s : String) : String :=
  String.mk (((s.data.dropWhile Char.isWhitespace).reverse.dropWhile Char.isWhitespace).reverse)

/-- `tl::Attributes::get`: `none` when the attribute is absent, `some none`
when it is present without a value, `some (some v)` otherwise. -/
def Node.attrGet (n : Node) (key : String) : Option (Option String) :=
  match n with
  | .tag _ attrs _ => (attrs.find? (fun a => a.1 == key)).map (·.2)
  | .raw _ => none

/-- The class list of a node: `tl` splits the `class` attribute at
whitespace (`Attributes::is_class_member`). -/
def Node.classList (n : Node) : List String :=
  match n.attrGet "class" with
  | some (some v) => splitOnChar ' ' v
  | _ => []

/-- Whether a node matches a `tl` selector string of the shape
`name.class1.class2` (tag name plus class predicates, the only selector
features `lookup.rs` uses). -/
def selector_matches (query : String) (n : Node) : Bool :=
  match splitOnChar '.' query with
  | [] => false
  | name :: classes =>
    match n with
    | .tag nm _ _ => nm == name && classes.all (fun c => (Node.classList n).contains c)
    | .raw _ => false

mutual
/-- The nodes of a subtree in document (pre-)order, the root included:
the order in which `tl` stores and iterates parsed nodes. -/
def Node.subtree : Node → List Node
  | .raw d => [.raw d]
  | .tag nm attrs cs => .tag nm attrs cs :: subtreeList cs

/-- The nodes of a forest in document order. -/
def subtreeList : List Node → List Node
  | [] => []
  | n :: ns => n.subtree ++ subtreeList ns
end

/-- `HTMLTag::query_selector`: all descendants of a tag matching the
selector, in document order (a raw node has no query interface). -/
def query_selector (n : Node) (query : String) : List Node :=
  match n with
  | .tag _ _ cs => (subtreeList cs).filter (selector_matches query)
  | .raw _ => []

/-- `VDom::query_selector` over the whole document. -/
def dom_query_selector (doc : List Node) (query : String) : List Node :=
  (subtreeList doc).filter (selector_matches query)

/-- `get_children` of `lookup.rs`: the direct children of a tag node,
`none` on a text node (`Node::children`). -/
def get_children : Node → Option (List Node)
  | .tag _ _ cs => some cs
  | .raw _ => none

/-- `query_select_first` of `lookup.rs`: `as_tag()?`, run the selector,
take the first hit. -/
def query_select_first (n : Node) (query : String) : Option Node :=
  match n with
  | .raw _ => none
  | .tag .. => (query_selector n query).head?

/-- `get_immediate_text` of `lookup.rs`: the node's text only when its
child list is exactly one raw text node. -/
def get_immediate_text (n : Node) : Option String :=
  (get_children n).bind fun children =>
    match children with
    | [Node.raw data] => some data
    | _ => none

/-- `get_header_text` of `lookup.rs`: the verbatim text of the first
`span.mw-headline` descendant. -/
def get_header_text (n : Node) : Option String :=
  (query_select_first n "span.mw-headline").bind get_immediate_text

/-- `node_tag_predicate` of `lookup.rs`, with the predicate specialised to
the tag name (the only attribute every call site inspects). -/
def node_tag_predicate (n : Node) (p : String → Bool) : Bool :=
  match n with
  | .tag nm _ _ => p nm
  | .raw _ => false

/-- Rust `nodes[a..b]` on a vector of nodes. -/
def sliceRange (l : List Node) (a b : Nat) : List Node :=
  (l.drop a).take (b - a)

/-- The `splitters` vector of `split_and_take`: indices of the nodes that
are tags at the given heading level. -/
def header_splitters (nodes : List Node) (header_level : String) : List Nat :=
  ((nodes.enum).filter
    (fun p => node_tag_predicate p.2 (fun t => t == header_level))).map Prod.fst

/-- The body of `split_and_take` after its `splitters` binding: find the
first index whose heading matches, and slice up to the next splitter (or
the end). -/
def split_and_take_with (nodes : List Node) (splitters : List Nat) (header_content : String) :
    Option (List Node) :=
  match splitters.findIdx?
      (fun idx => get_header_text (nodes.getD idx (.raw "")) == some header_content) with
  | none => none
  | some m =>
    if m < splitters.length - 1 then
      some (sliceRange nodes (splitters.getD m 0) (splitters.getD (m + 1) 0))
    else
      some (nodes.drop (splitters.getD m 0))

/-- `split_and_take` of `lookup.rs`: find the first heading at
`header_level` whose visible label is `header_content`, and return the node
range from it up to the next heading at that level (or the end). -/
def split_and_take (nodes : List Node) (header_level : String) (header_content : String) :
    Option (List Node) :=
  split_and_take_with nodes (header_splitters nodes header_level) header_content

/-- The `splitters` vector of `split_at_h3_h4`: indices of `h3`/`h4` tags. -/
def h3_h4_splitters (nodes : List Node) : List Nat :=
  ((nodes.enum).filter
    (fun p => node_tag_predicate p.2 (fun t => t == "h3" || t == "h4"))).map Prod.fst

/-- `split_at_h3_h4` of `lookup.rs`: one node range per consecutive pair of
`h3`/`h4` headings (`zip(splitters, splitters[1..])`). -/
def split_at_h3_h4 (nodes : List Node) : List (List Node) :=
  let splitters := h3_h4_splitters nodes
  (splitters.zip splitters.tail).map (fun pair => sliceRange nodes pair.1 pair.2)

/-- `fetch_french_sections` of `lookup.rs`: body of `div.mw-parser-output`,
restricted to the `French` `h2` region, split at `h3`/`h4`. -/
def fetch_french_sections (doc : List Node) : Option (List (List Node)) :=
  (dom_query_selector doc "div.mw-parser-output").head?.bind fun mw_parser_output =>
    (get_children mw_parser_output).bind fun body_elems =>
      (split_and_take body_elems "h2" "French").map split_at_h3_h4

/-- `find_first_node_by_name` of `lookup.rs`: the first node in the list
that is a tag with the given name (non-tags skipped). -/
def find_first_node_by_name (nodes : List Node) (node_name : String) : Option Node :=
  nodes.find? (fun n => node_tag_predicate n (fun t => t == node_name))

/-- UTF-8 byte length of a character list: the model of Rust `&str::len`. -/
def utf8Length (cs : List Char) : Nat := (cs.map Char.utf8Size).sum

/-- The match positions of the two-character pattern space-then-parenthesis
inside `t`: exactly the positions at which the greedy group of the regex
`(.*) \((.*)\)` may end.  `captures_iter(..).next()` keeps the greedy
(that is, the last) one. -/
def parenSplits (t : List Char) : List Nat :=
  (List.range t.length).filter (fun i => t[i]? == some ' ' && t[i + 1]? == some '(')

/-- `shorten_meaning` of `lookup.rs`: match `^(.*) \((.*)\)$` against the
whole string (`.` excludes newlines, the first group is greedy so the split
is at the last space-parenthesis, the second group ends at the final
closing parenthesis) and drop the parenthetical when its byte length is at
least 15. -/
def shorten_meaning (meaning : String) : String :=
  let cs := meaning.data
  if cs.contains '\n' then meaning
  else if cs.getLast? == some ')' then
    let t := cs.dropLast
    match (parenSplits t).getLast? with
    | some i =>
      if 15 ≤ utf8Length (t.drop (i + 2)) then String.mk (t.take i) else meaning
    | none => meaning
  else meaning

mutual
/-- `tl::Node::inner_text`: the concatenated raw text of a subtree. -/
def Node.innerText : Node → String
  | .raw d => d
  | .tag _ _ cs => innerTextList cs

/-- Concatenated `inner_text` of a forest. -/
def innerTextList : List Node → String
  | [] => ""
  | n :: ns => n.innerText ++ innerTextList ns
end

/-- One serialized attribute, as `tl` re-renders it. -/
def attrText (a : String × Option String) : String :=
  match a.2 with
  | some v => " " ++ a.1 ++ "=" ++ "\"" ++ v ++ "\""
  | none => " " ++ a.1

mutual
/-- The HTML serialization of a node (`tl`'s re-rendering of a subtree). -/
def Node.outerHtml : Node → String
  | .raw d => d
  | .tag nm attrs cs =>
    "<" ++ nm ++ String.join (attrs.map attrText) ++ ">" ++ innerHtmlList cs ++ "</" ++ nm ++ ">"

/-- The HTML serialization of a forest. -/
def innerHtmlList : List Node → String
  | [] => ""
  | n :: ns => n.outerHtml ++ innerHtmlList ns
end

/-- `HTMLTag::inner_html`: the serialized markup of a tag's children. -/
def Node.innerHtml : Node → String
  | .raw d => d
  | .tag _ _ cs => innerHtmlList cs

/-- `NounGender` of `lookup.rs`. -/
inductive NounGender where
  | Masculine
  | Feminine
deriving DecidableEq, Repr

/-- `PartOfSpeech` of `lookup.rs`. -/
inductive PartOfSpeech where
  | Noun (gender : Option NounGender)
  | Verb
  | Adjective (f : Option String) (mp : Option String) (fp : Option String)
  | Pronoun
  | Adverb
  | Numeral
  | Determiner
  | Preposition
  | Interjection
deriving DecidableEq, Repr

/-- `Example` of `lookup.rs`: original sentence and optional translation. -/
def Example := String × Option String
deriving DecidableEq, Repr

/-- `Meaning` of `lookup.rs`. -/
structure Meaning where
  pos : PartOfSpeech
  meaning : String
  examples : List Example
deriving DecidableEq, Repr

/-- `Pronunciation` of `lookup.rs`. -/
structure Pronunciation where
  ipa : String
  audio_url : String
deriving DecidableEq, Repr

/-- `Word` of `lookup.rs`. -/
structure Word where
  word : String
  wiki_link : String
  pronunciation : Option Pronunciation
  meanings : List Meaning
deriving DecidableEq, Repr

/-- The failure channel of the engine: `err` is a `Box<dyn Error>` value
propagated with `?`; `panic` is a Rust panic (a process abort that no code
in `lookup.rs` catches), kept separate so that crash behaviour is visible
in the model. -/
inductive LookupErr where
  | err (msg : String)
  | panic (msg : String)
deriving DecidableEq, Repr

/-- The inner `parse_example` of `parse_meaning_item`: original sentence
from the inline or quotation selector (the hit must be a tag), optional
translation from `span.e-translation` (a non-tag hit fails the example). -/
def parse_example (node : Node) (inline_mode : Bool) : Option Example :=
  let orig_query := if inline_mode then "i.Latn.mention.e-example" else "span.e-quotation"
  (query_select_first node orig_query).bind fun orig_node =>
    match orig_node with
    | .raw _ => none
    | .tag .. =>
      let orig := orig_node.innerHtml
      match query_select_first node "span.e-translation" with
      | some (.tag nm attrs cs) => some ((orig, some (Node.innerHtml (.tag nm attrs cs))) : Example)
      | some (.raw _) => none
      | none => some ((orig, none) : Example)

/-- `parse_meaning_item` of `lookup.rs`: examples from a trailing `dl`
(inline style) or `ul` (quotation style), meaning text from the
concatenated inner text of all children, first line only, trimmed and
shortened. -/
def parse_meaning_item (node : Node) (pos : PartOfSpeech) : Option Meaning :=
  (get_children node).bind fun children =>
    children.getLast?.bind fun last_node =>
      let examples : List Example :=
        match last_node with
        | .tag nm _ _ =>
          if nm == "dl" then
            (query_selector last_node "div.h-usage-example").filterMap
              (fun n => parse_example n true)
          else if nm == "ul" then
            (query_selector last_node "li").filterMap (fun n => parse_example n false)
          else []
        | .raw _ => []
      let meanings := String.join (children.map Node.innerText)
      ((splitOnChar '\n' meanings).head?).map fun first_line =>
        { pos := pos, meaning := shorten_meaning (trimChars first_line), examples := examples }

/-- `get_meanings_from_section` of `lookup.rs` (`sec` is the Rust `section`
argument; `section` is a Lean keyword).  The `.expect("")` on the `<ol>`'s
children is modelled as a panic; it is unreachable because
`find_first_node_by_name` only returns tags. -/
def get_meanings_from_section (sec : List Node) (pos : PartOfSpeech) :
    Except LookupErr (List Meaning) :=
  match find_first_node_by_name (sec.drop 1) "ol" with
  | none => .error (.err "Cannot find <ol>")
  | some ol =>
    match get_children ol with
    | none => .error (.panic "")
    | some children =>
      .ok (children.filterMap (fun n =>
        match n with
        | .tag nm _ _ => if nm == "li" then parse_meaning_item n pos else none
        | .raw _ => none))

/-- `get_gender_from_section` of `lookup.rs`: first `abbr` inside the first
`p`, verbatim text `m` or `f`. -/
def get_gender_from_section (sec : List Node) : Option NounGender :=
  (find_first_node_by_name sec "p").bind fun outer_node =>
    (query_select_first outer_node "abbr").bind fun abbr_node =>
      match get_immediate_text abbr_node with
      | some s => if s == "m" then some .Masculine
                  else if s == "f" then some .Feminine
                  else none
      | none => none

/-- `get_pr_from_section` of `lookup.rs`: IPA span and audio `source` `src`
attribute inside the first `ul` after the heading; both required. -/
def get_pr_from_section (sec : List Node) : Option Pronunciation :=
  (find_first_node_by_name (sec.drop 1) "ul").bind fun subsec =>
    (query_select_first subsec "span.IPA").bind fun ipa_node =>
      (get_immediate_text ipa_node).bind fun ipa =>
        (query_select_first subsec "source").bind fun audio_node =>
          if audio_node.isTag then
            (audio_node.attrGet "src").bind fun maybe_src =>
              maybe_src.bind fun audio_href =>
                some { ipa := ipa, audio_url := "https:" ++ audio_href }
          else none

/-- `get_adj_form_from_section` of `lookup.rs`: scan adjacent element pairs
of the first `p` for an `i` label followed by a `b` form.  The Rust loop
`for idx in 0..children.len() - 1` underflows (debug) or indexes out of
bounds (release) when the `p` has no element children: that is the
modelled panic. -/
def get_adj_form_from_section (sec : List Node) : Except LookupErr (Option PartOfSpeech) :=
  match find_first_node_by_name sec "p" with
  | none => .ok none
  | some outer_node =>
    match get_children outer_node with
    | none => .ok none
    | some cs =>
      let children := cs.filter Node.isTag
      if children.length = 0 then
        .error (.panic "index out of bounds: children.len() - 1 underflows")
      else
        let step := fun (acc : Option String × Option String × Option String)
            (pair : Node × Node) =>
          let (f, mp, fp) := acc
          if pair.1.tagName == "i" && pair.2.tagName == "b" then
            let label := pair.1.innerText
            let form := pair.2.innerText
            if label == "feminine" then (some form, mp, fp)
            else if label == "masculine plural" then (f, some form, fp)
            else if label == "feminine plural" then (f, mp, some form)
            else (f, mp, fp)
          else (f, mp, fp)
        let forms := (children.zip children.tail).foldl step (none, none, none)
        .ok (some (.Adjective forms.1 forms.2.1 forms.2.2))

/-- The `part_of_speech_name` table of `wiktionary_lookup`: the headings
dispatched to a fixed-attribute `PartOfSpeech` variant. -/
def part_of_speech_name : String → Option PartOfSpeech
  | "Verb" => some .Verb
  | "Pronoun" => some .Pronoun
  | "Adverb" => some .Adverb
  | "Numeral" => some .Numeral
  | "Determiner" => some .Determiner
  | "Preposition" => some .Preposition
  | "Interjection" => some .Interjection
  | _ => none

/-- The `for section in sections` loop of `wiktionary_lookup`, with the two
mutable accumulators (`pronunciation`, `meanings`) made explicit.  A
`?`-propagated error or a panic aborts the loop. -/
def assemble_sections : List (List Node) → Option Pronunciation → List Meaning →
    Except LookupErr (Option Pronunciation × List Meaning)
  | [], pron, meanings => .ok (pron, meanings)
  | sec :: rest, pron, meanings =>
    match get_header_text (sec.head?.getD (.raw "")) with
    | none => assemble_sections rest pron meanings
    | some h =>
      if h == "Pronunciation" then
        assemble_sections rest (get_pr_from_section sec) meanings
      else if h == "Noun" then
        match get_meanings_from_section sec (.Noun (get_gender_from_section sec)) with
        | .error e => .error e
        | .ok ms => assemble_sections rest pron (meanings ++ ms)
      else if h == "Adjective" then
        match get_adj_form_from_section sec with
        | .error e => .error e
        | .ok none => .error (.err "Adjective forms parsing failed")
        | .ok (some adj_forms) =>
          match get_meanings_from_section sec adj_forms with
          | .error e => .error e
          | .ok ms => assemble_sections rest pron (meanings ++ ms)
      else
        match part_of_speech_name h with
        | some pos =>
          match get_meanings_from_section sec pos with
          | .error e => .error e
          | .ok ms => assemble_sections rest pron (meanings ++ ms)
        | none => assemble_sections rest pron meanings

/-- `wiktionary_lookup` of `lookup.rs`, from the parsed document on (the
HTTP fetch and HTML parse are the out-of-scope I/O boundary). -/
def wiktionary_lookup (doc : List Node) (word : String) : Except LookupErr Word :=
  let url := "https://en.wiktionary.org/wiki/" ++ word
  match fetch_french_sections doc with
  | none => .error (.err ("Cannot find word " ++ word))
  | some sections =>
    match assemble_sections sections none [] with
    | .error e => .error e
    | .ok pm =>
      .ok { word := word, wiki_link := url ++ "#French", pronunciation := pm.1,
            meanings := pm.2 }

/-! Specification-level views of the loop, used to state the claims: what a
single subsection contributes, independent of its position in the loop. -/

/-- The meanings one subsection contributes, as the loop body computes
them: empty for an unrecognized or Pronunciation heading, the meaning
parser's output for a recognized part of speech, an error exactly when the
loop body would abort the lookup. -/
def section_meanings (sec : List Node) : Except LookupErr (List Meaning) :=
  match get_header_text (sec.head?.getD (.raw "")) with
  | none => .ok []
  | some h =>
    if h == "Pronunciation" then .ok []
    else if h == "Noun" then
      get_meanings_from_section sec (.Noun (get_gender_from_section sec))
    else if h == "Adjective" then
      match get_adj_form_from_section sec with
      | .error e => .error e
      | .ok none => .error (.err "Adjective forms parsing failed")
      | .ok (some adj_forms) => get_meanings_from_section sec adj_forms
    else
      match part_of_speech_name h with
      | some pos => get_meanings_from_section sec pos
      | none => .ok []

/-- The meanings of a subsection that parses, `[]` otherwise. -/
def section_meanings_ok (sec : List Node) : List Meaning :=
  match section_meanings sec with
  | .ok ms => ms
  | .error _ => []

/-- Whether the loop classifies a subsection as a Pronunciation one. -/
def is_pron_section (sec : List Node) : Bool :=
  get_header_text (sec.head?.getD (.raw "")) == some "Pronunciation"

/-! Lemmas about `parenSplits` and `shorten_meaning`. -/

theorem mem_parenSplits {t : List Char} {i : Nat} :
    i ∈ parenSplits t ↔ i < t.length ∧ t[i]? = some ' ' ∧ t[i + 1]? = some '(' := by
  simp [parenSplits, List.mem_filter, List.mem_range]

theorem parenSplits_pairwise (t : List Char) : (parenSplits t).Pairwise (· < ·) :=
  List.Pairwise.sublist (List.filter_sublist _) (List.pairwise_lt_range _)

theorem getLast?_eq_of_mem_of_forall_le {l : List Nat} (hp : l.Pairwise (· < ·)) {i : Nat}
    (hm : i ∈ l) (hmax : ∀ j ∈ l, j ≤ i) : l.getLast? = some i := by
  induction l with
  | nil => cases hm
  | cons a l ih =>
    cases l with
    | nil =>
      simp only [List.mem_singleton] at hm
      simp [hm]
    | cons b l2 =>
      rw [List.getLast?_cons_cons]
      have hab : a < b := (List.pairwise_cons.mp hp).1 b (by simp)
      rcases List.mem_cons.mp hm with rfl | hm2
      · exact absurd (hmax b (by simp)) (by omega)
      · exact ih (List.pairwise_cons.mp hp).2 hm2 (fun j hj => hmax j (List.mem_cons_of_mem _ hj))

theorem eq_of_mem_of_length_le_one {l : List Nat} (h : l.length ≤ 1) {a b : Nat}
    (ha : a ∈ l) (hb : b ∈ l) : a = b := by
  match l with
  | [] => cases ha
  | [x] =>
    simp only [List.mem_singleton] at ha hb
    omega
  | x :: y :: t => simp at h

/-- The untouched branches of `shorten_meaning`: any input that does not end
in a closing parenthesis, or whose body has no space-parenthesis split, is
returned unchanged. -/
theorem shorten_meaning_eq_self {s : String}
    (h : s.data.getLast? ≠ some ')' ∨ parenSplits s.data.dropLast = []) :
    shorten_meaning s = s := by
  unfold shorten_meaning
  by_cases hn : '\n' ∈ s.data
  · simp [hn]
  · rcases h with h | h
    · simp [hn, h]
    · by_cases hl : s.data.getLast? = some ')'
      · simp [hn, hl, h]
      · simp [hn, hl]

theorem dropLast_take_subset_parenSplits {t : List Char} {i j : Nat}
    (hj : j ∈ parenSplits ((t.take i).dropLast)) : j ∈ parenSplits t ∧ j + 1 < i := by
  rcases mem_parenSplits.mp hj with ⟨hlen, hsp, hpo⟩
  have hu : ∀ (k : Nat) (c : Char), ((t.take i).dropLast)[k]? = some c →
      t[k]? = some c ∧ k + 1 < i := by
    intro k c hk
    rw [List.dropLast_eq_take] at hk
    have hk1 : k < (t.take i).length - 1 := by
      by_contra hcon
      rw [List.getElem?_take_eq_none (by omega)] at hk
      cases hk
    rw [List.getElem?_take_of_lt hk1] at hk
    have hk2 : k < i := by
      by_contra hcon
      rw [List.getElem?_take_eq_none (by omega)] at hk
      cases hk
    have hti : (t.take i).length ≤ i := by
      simp [List.length_take]
    rw [List.getElem?_take_of_lt hk2] at hk
    exact ⟨hk, by omega⟩
  rcases hu _ _ hsp with ⟨hsp', hki⟩
  rcases hu _ _ hpo with ⟨hpo', _⟩
  have hjt : j < t.length := by
    have := List.getElem?_eq_some_iff.mp hsp'
    exact this.1
  exact ⟨mem_parenSplits.mpr ⟨hjt, hsp', hpo'⟩, hki⟩

theorem dropLast_subset_parenSplits {s : List Char} {j : Nat}
    (hj : j ∈ parenSplits s.dropLast) : j ∈ parenSplits s := by
  rcases mem_parenSplits.mp hj with ⟨hlen, hsp, hpo⟩
  have hd : ∀ (k : Nat) (c : Char), (s.dropLast)[k]? = some c → s[k]? = some c := by
    intro k c hk
    rw [List.getElem?_dropLast] at hk
    by_cases hk1 : k < s.length - 1
    · simpa [hk1] using hk
    · simp [hk1] at hk
  have h1 := hd _ _ hsp
  have h2 := hd _ _ hpo
  have hjs : j < s.length := (List.getElem?_eq_some_iff.mp h1).1
  exact mem_parenSplits.mpr ⟨hjs, h1, h2⟩

/-- C3 counterexample: `shorten_meaning` is not idempotent.  On an input
with two long trailing parentheticals the greedy regex strips only the last
one, and a second application strips the next: the spec's idempotence claim
fails on this concrete input. -/
theorem claim_C3_counterexample :
    shorten_meaning (shorten_meaning "x (aaaaaaaaaaaaaaa) (bbbbbbbbbbbbbbb)") ≠
      shorten_meaning "x (aaaaaaaaaaaaaaa) (bbbbbbbbbbbbbbb)" := by decide

/-- C3 (amended): `shorten_meaning` is idempotent on every input containing
at most one occurrence of the two-character substring space-parenthesis
(`parenSplits` lists those occurrences); on inputs with several trailing
parentheticals a second application may strip another one. -/
theorem claim_C3_shorten_meaning_idempotent (s : String)
    (h : (parenSplits s.data).length ≤ 1) :
    shorten_meaning (shorten_meaning s) = shorten_meaning s := by
  by_cases hn : '\n' ∈ s.data
  · have e : shorten_meaning s = s := by simp [shorten_meaning, hn]
    rw [e]
    exact e
  · by_cases hl : s.data.getLast? = some ')'
    · cases hsp : (parenSplits s.data.dropLast).getLast? with
      | none =>
        have e : shorten_meaning s = s :=
          shorten_meaning_eq_self (Or.inr (List.getLast?_eq_none_iff.mp hsp))
        rw [e]
        exact e
      | some i =>
        by_cases hlen : 15 ≤ utf8Length ((s.data.dropLast).drop (i + 2))
        · have eA : shorten_meaning s = String.mk ((s.data.dropLast).take i) := by
            simp [shorten_meaning, hn, hl, hsp, hlen]
          rw [eA]
          apply shorten_meaning_eq_self
          right
          rw [List.eq_nil_iff_forall_not_mem]
          intro j hj
          have hj' : j ∈ parenSplits ((String.mk ((s.data.dropLast).take i)).data.dropLast) := hj
          rcases dropLast_take_subset_parenSplits hj' with ⟨hjt, hji⟩
          have hjs : j ∈ parenSplits s.data := dropLast_subset_parenSplits hjt
          have his : i ∈ parenSplits s.data :=
            dropLast_subset_parenSplits (List.mem_of_getLast?_eq_some hsp)
          have := eq_of_mem_of_length_le_one h hjs his
          omega
        · have e : shorten_meaning s = s := by
            simp [shorten_meaning, hn, hl, hsp, hlen]
          rw [e]
          exact e
    · have e : shorten_meaning s = s := shorten_meaning_eq_self (Or.inl hl)
      rw [e]
      exact e

/-- C3 witness: the amended idempotence at a concrete input. -/
theorem claim_C3_witness :
    (parenSplits ("cat (an animal)" : String).data).length ≤ 1 ∧
      shorten_meaning (shorten_meaning "cat (an animal)") =
        shorten_meaning "cat (an animal)" :=
  ⟨by decide, claim_C3_shorten_meaning_idempotent "cat (an animal)" (by decide)⟩

/-- The stripping branch of `shorten_meaning`, characterised by the three
facts the regex match needs: no newline, a final closing parenthesis, and
the greedy (last) space-parenthesis split position. -/
theorem shorten_meaning_eq_strip {s : String} {i : Nat}
    (hn : '\n' ∉ s.data) (hl : s.data.getLast? = some ')')
    (hsp : (parenSplits s.data.dropLast).getLast? = some i) :
    shorten_meaning s =
      if 15 ≤ utf8Length ((s.data.dropLast).drop (i + 2)) then
        String.mk ((s.data.dropLast).take i)
      else s := by
  simp [shorten_meaning, hn, hl, hsp]

/-- C4: the shortening law.  For an input written as text, a space, a final
parenthetical `(Y)` (final: the pattern of a space before an opening
parenthesis does not recur inside `Y`, newline-free as the regex dot
requires), the parenthetical is stripped exactly when its byte length is at
least 15; an input with no trailing parenthetical is returned unchanged. -/
theorem claim_C4_shortening_law :
    (∀ X Y : String, '\n' ∉ X.data → '\n' ∉ Y.data → parenSplits Y.data = [] →
      shorten_meaning (X ++ " (" ++ Y ++ ")") =
        if 15 ≤ utf8Length Y.data then X else X ++ " (" ++ Y ++ ")") ∧
    (∀ s : String, s.data.getLast? ≠ some ')' ∨ parenSplits s.data.dropLast = [] →
      shorten_meaning s = s) := by
  constructor
  · intro X Y hX hY hYs
    have hdata : (X ++ " (" ++ Y ++ ")").data =
        X.data ++ ' ' :: '(' :: (Y.data ++ [')']) := by
      have h1 : (" (" : String).data = [' ', '('] := rfl
      have h2 : ((")") : String).data = [')'] := rfl
      simp [String.data_append, h1, h2]
    set t : List Char := X.data ++ ' ' :: '(' :: Y.data with ht
    have hreshape : X.data ++ ' ' :: '(' :: (Y.data ++ [')']) = t ++ [')'] := by
      simp [ht]
    have hcontains : '\n' ∉ (X ++ " (" ++ Y ++ ")").data := by
      rw [hdata]
      simp only [List.mem_append, List.mem_cons, List.mem_singleton]
      push_neg
      exact ⟨hX, by decide, by decide, hY, by decide⟩
    have hlast : (X ++ " (" ++ Y ++ ")").data.getLast? = some ')' := by
      rw [hdata, hreshape]
      exact List.getLast?_concat _
    have hdrop : (X ++ " (" ++ Y ++ ")").data.dropLast = t := by
      rw [hdata, hreshape]
      exact List.dropLast_concat
    have hsp0 : t[X.data.length]? = some ' ' := by
      rw [ht, List.getElem?_append_right (Nat.le_refl _)]
      simp
    have hsp1 : t[X.data.length + 1]? = some '(' := by
      rw [ht, List.getElem?_append_right (by omega)]
      have : X.data.length + 1 - X.data.length = 1 := by omega
      rw [this]
      simp
    have htlen : t.length = X.data.length + 2 + Y.data.length := by
      simp [ht]
      omega
    have hmem : X.data.length ∈ parenSplits t :=
      mem_parenSplits.mpr ⟨by omega, hsp0, hsp1⟩
    have hmax : ∀ j ∈ parenSplits t, j ≤ X.data.length := by
      intro j hj
      rcases mem_parenSplits.mp hj with ⟨hjlen, hjsp, hjpo⟩
      by_contra hgt
      push_neg at hgt
      by_cases hj1 : j = X.data.length + 1
      · rw [hj1] at hjsp
        rw [hsp1] at hjsp
        cases hjsp
      · have hge2 : X.data.length + 2 ≤ j := by omega
        rw [ht, List.getElem?_append_right (by omega)] at hjsp
        rw [ht, List.getElem?_append_right (by omega)] at hjpo
        have e1 : j - X.data.length = (j - X.data.length - 2) + 1 + 1 := by omega
        have e2 : j + 1 - X.data.length = (j - X.data.length - 2) + 1 + 1 + 1 := by omega
        rw [e1] at hjsp
        rw [e2] at hjpo
        simp only [List.getElem?_cons_succ] at hjsp hjpo
        have hk : (j - X.data.length - 2) ∈ parenSplits Y.data := by
          refine mem_parenSplits.mpr ⟨?_, hjsp, ?_⟩
          · exact (List.getElem?_eq_some_iff.mp hjsp).1
          · exact hjpo
        rw [hYs] at hk
        cases hk
    have hsplits_last : (parenSplits t).getLast? = some X.data.length :=
      getLast?_eq_of_mem_of_forall_le (parenSplits_pairwise t) hmem hmax
    have e := shorten_meaning_eq_strip hcontains hlast (by rw [hdrop]; exact hsplits_last)
    rw [e, hdrop]
    have hdropY : t.drop (X.data.length + 2) = Y.data := by
      rw [ht, List.drop_append 2]
      rfl
    have htake : t.take X.data.length = X.data := by
      rw [ht]
      exact List.take_left _ _
    rw [hdropY, htake]
  · intro s h
    exact shorten_meaning_eq_self h

/-- C4 witness: both halves of the law at concrete inputs — a 15-byte
parenthetical is stripped, an input with no trailing parenthetical is
kept. -/
theorem claim_C4_witness :
    shorten_meaning ("cat" ++ " (" ++ "aaaaaaaaaaaaaaa" ++ ")") =
      (if 15 ≤ utf8Length ("aaaaaaaaaaaaaaa" : String).data then ("cat" : String)
       else "cat" ++ " (" ++ "aaaaaaaaaaaaaaa" ++ ")") ∧
    shorten_meaning "hello" = "hello" :=
  ⟨claim_C4_shortening_law.1 "cat" "aaaaaaaaaaaaaaa" (by decide) (by decide) (by decide),
   claim_C4_shortening_law.2 "hello" (Or.inl (by decide))⟩

/-! Lemmas about the section segmenter. -/

theorem sliceRange_append {l : List Node} {a b c : Nat} (hab : a ≤ b) (hbc : b ≤ c) :
    sliceRange l a b ++ sliceRange l b c = sliceRange l a c := by
  unfold sliceRange
  have hd : l.drop b = (l.drop a).drop (b - a) := by
    rw [List.drop_drop]
    congr 1
    omega
  rw [hd]
  have hc : c - a = (b - a) + (c - b) := by omega
  rw [hc, List.take_add]

/-- Membership in an enumerate-filter-map-fst index list. -/
theorem mem_enum_filter_map {α : Type} {p : α → Bool} {l : List α} {i : Nat} :
    i ∈ ((l.enum.filter (fun q => p q.2)).map Prod.fst) ↔
      ∃ x, l[i]? = some x ∧ p x = true := by
  constructor
  · intro h
    rcases List.mem_map.mp h with ⟨q, hqmem, rfl⟩
    rcases List.mem_filter.mp hqmem with ⟨henum, hp⟩
    exact ⟨q.2, List.mem_enum_iff_getElem?.mp henum, hp⟩
  · rintro ⟨x, hget, hp⟩
    exact List.mem_map.mpr
      ⟨(i, x), List.mem_filter.mpr ⟨List.mem_enum_iff_getElem?.mpr hget, hp⟩, rfl⟩

theorem enum_filter_map_pairwise {α : Type} (p : α → Bool) (l : List α) :
    ((l.enum.filter (fun q => p q.2)).map Prod.fst).Pairwise (· < ·) := by
  have hsub : List.Sublist ((l.enum.filter (fun q => p q.2)).map Prod.fst)
      (l.enum.map Prod.fst) :=
    (List.filter_sublist _).map _
  rw [List.enum_map_fst] at hsub
  exact List.Pairwise.sublist hsub (List.pairwise_lt_range _)

theorem h3_h4_splitters_pairwise (nodes : List Node) :
    (h3_h4_splitters nodes).Pairwise (· < ·) := by
  unfold h3_h4_splitters
  exact enum_filter_map_pairwise
    (fun n => node_tag_predicate n (fun t => t == "h3" || t == "h4")) nodes

/-- Flattening the consecutive-pair slices of a strictly increasing index
list yields the slice from the first index to the last. -/
theorem flatten_zip_slices (nodes : List Node) (ss : List Nat) (hp : ss.Pairwise (· < ·)) :
    ∀ i0 il, ss.head? = some i0 → ss.getLast? = some il →
      ((ss.zip ss.tail).map (fun pair => sliceRange nodes pair.1 pair.2)).flatten =
        sliceRange nodes i0 il := by
  induction ss with
  | nil => intro i0 il h0 _; cases h0
  | cons a ss ih =>
    intro i0 il h0 hl
    have h0' : a = i0 := by simpa using h0
    cases ss with
    | nil =>
      have hl' : a = il := by simpa using hl
      rw [← h0', ← hl']
      simp [sliceRange]
    | cons b ss2 =>
      rw [List.getLast?_cons_cons] at hl
      have hab : a < b := (List.pairwise_cons.mp hp).1 b (by simp)
      have hbl : b ≤ il := by
        have hmem := List.mem_of_getLast?_eq_some hl
        rcases List.mem_cons.mp hmem with rfl | hmem2
        · exact Nat.le_refl _
        · exact Nat.le_of_lt
            ((List.pairwise_cons.mp (List.pairwise_cons.mp hp).2).1 il hmem2)
      have ihr := ih (List.pairwise_cons.mp hp).2 b il (by simp) hl
      simp only [List.tail_cons] at ihr
      rw [← h0']
      simp only [List.tail_cons, List.zip_cons_cons, List.map_cons, List.flatten_cons]
      rw [ihr, sliceRange_append (Nat.le_of_lt hab) hbl]

/-- C6: `split_at_h3_h4` produces one range per consecutive pair of
sub-heading indices, namely the range from one sub-heading up to but
excluding the next; fewer than two sub-headings yield no subsections; and
together the ranges tile the region up to the material before the first
sub-heading and from the last sub-heading on. -/
theorem claim_C6_split_at_h3_h4_tiling (nodes : List Node) :
    (split_at_h3_h4 nodes).length = (h3_h4_splitters nodes).length - 1 ∧
    (∀ k, k + 1 < (h3_h4_splitters nodes).length →
      (split_at_h3_h4 nodes)[k]? =
        some (sliceRange nodes ((h3_h4_splitters nodes).getD k 0)
          ((h3_h4_splitters nodes).getD (k + 1) 0))) ∧
    ((h3_h4_splitters nodes).length < 2 → split_at_h3_h4 nodes = []) ∧
    (∀ i0 il, (h3_h4_splitters nodes).head? = some i0 →
      (h3_h4_splitters nodes).getLast? = some il →
      nodes.take i0 ++ (split_at_h3_h4 nodes).flatten ++ nodes.drop il = nodes) := by
  have hlen : (split_at_h3_h4 nodes).length = (h3_h4_splitters nodes).length - 1 := by
    simp [split_at_h3_h4]
  refine ⟨hlen, ?_, ?_, ?_⟩
  · intro k hk
    have hk1 : k < (split_at_h3_h4 nodes).length := by omega
    have hkz : k < ((h3_h4_splitters nodes).zip (h3_h4_splitters nodes).tail).length := by
      simpa [split_at_h3_h4] using hk1
    have hks : k < (h3_h4_splitters nodes).length := by omega
    have hkt : k < (h3_h4_splitters nodes).tail.length := by
      simp only [List.length_tail]
      omega
    rw [List.getElem?_eq_getElem hk1]
    simp only [split_at_h3_h4, List.getElem_map, List.getElem_zip, List.getElem_tail,
      Option.some.injEq]
    congr 1
    · rw [List.getD_eq_getElem?_getD, List.getElem?_eq_getElem hks]
      rfl
    · rw [List.getD_eq_getElem?_getD, List.getElem?_eq_getElem (by omega : k + 1 < (h3_h4_splitters nodes).length)]
      rfl
  · intro hlt2
    unfold split_at_h3_h4
    match hss : h3_h4_splitters nodes with
    | [] => rfl
    | [a] => rfl
    | a :: b :: t =>
      rw [hss] at hlt2
      simp at hlt2
      omega
  · intro i0 il h0 hl
    have hflat : (split_at_h3_h4 nodes).flatten = sliceRange nodes i0 il :=
      flatten_zip_slices nodes _ (h3_h4_splitters_pairwise nodes) i0 il h0 hl
    have h0il : i0 ≤ il := by
      have hmem0 := List.mem_of_getLast?_eq_some hl
      rcases hh : h3_h4_splitters nodes with _ | ⟨a, rest⟩
      · rw [hh] at h0; cases h0
      · rw [hh] at h0 hmem0
        have ha : a = i0 := by simpa using h0
        rcases List.mem_cons.mp hmem0 with heq | hmem2
        · omega
        · have hp := h3_h4_splitters_pairwise nodes
          rw [hh] at hp
          have := (List.pairwise_cons.mp hp).1 il hmem2
          omega
    rw [hflat]
    have h3 : (nodes.drop i0).drop (il - i0) = nodes.drop il := by
      rw [List.drop_drop]
      congr 1
      omega
    have h2 : sliceRange nodes i0 il ++ nodes.drop il = nodes.drop i0 := by
      rw [← h3]
      exact List.take_append_drop _ _
    rw [List.append_assoc, h2]
    exact List.take_append_drop _ _

/-! Membership in document subtrees, for the missing-language claim. -/

mutual
theorem mem_subtree_trans : ∀ (n x y : Node), x ∈ n.subtree → y ∈ x.subtree → y ∈ n.subtree
  | .raw d, x, y, hx, hy => by
    simp only [Node.subtree, List.mem_singleton] at hx
    subst hx
    simpa [Node.subtree] using hy
  | .tag nm attrs cs, x, y, hx, hy => by
    simp only [Node.subtree, List.mem_cons] at hx
    rcases hx with rfl | hx2
    · exact hy
    · have hrec := mem_subtreeList_trans cs x y hx2 hy
      simp only [Node.subtree, List.mem_cons]
      exact Or.inr hrec

theorem mem_subtreeList_trans :
    ∀ (l : List Node) (x y : Node), x ∈ subtreeList l → y ∈ x.subtree → y ∈ subtreeList l
  | [], x, y, hx, _ => by simp [subtreeList] at hx
  | n :: ns, x, y, hx, hy => by
    simp only [subtreeList, List.mem_append] at hx ⊢
    rcases hx with h1 | h2
    · exact Or.inl (mem_subtree_trans n x y h1 hy)
    · exact Or.inr (mem_subtreeList_trans ns x y h2 hy)
end

theorem self_mem_subtree (n : Node) : n ∈ n.subtree := by
  cases n <;> simp [Node.subtree]

theorem mem_subtreeList_of_mem {l : List Node} {n : Node} (h : n ∈ l) : n ∈ subtreeList l := by
  induction l with
  | nil => cases h
  | cons m ms ih =>
    simp only [subtreeList, List.mem_append]
    rcases List.mem_cons.mp h with rfl | h2
    · exact Or.inl (self_mem_subtree _)
    · exact Or.inr (ih h2)

theorem child_mem_subtreeList {l cs : List Node} {n c : Node} (hn : n ∈ subtreeList l)
    (hcs : get_children n = some cs) (hc : c ∈ cs) : c ∈ subtreeList l := by
  apply mem_subtreeList_trans l n c hn
  cases n with
  | raw d => simp [get_children] at hcs
  | tag nm attrs cs2 =>
    have hcs' : cs2 = cs := by simpa [get_children] using hcs
    subst hcs'
    simp only [Node.subtree, List.mem_cons]
    exact Or.inr (mem_subtreeList_of_mem hc)

theorem mem_header_splitters {nodes : List Node} {lvl : String} {i : Nat} :
    i ∈ header_splitters nodes lvl ↔
      ∃ x, nodes[i]? = some x ∧ node_tag_predicate x (fun t => t == lvl) = true := by
  unfold header_splitters
  exact @mem_enum_filter_map Node (fun n => node_tag_predicate n (fun t => t == lvl)) nodes i

/-- C5: a document with no `h2` heading labelled `French` anywhere makes
`wiktionary_lookup` fail with the not-found error; the `Except` result
carries no `Word`, partial or otherwise. -/
theorem claim_C5_missing_language_not_found (doc : List Node) (word : String)
    (h : ∀ n ∈ subtreeList doc, ¬(node_tag_predicate n (fun t => t == "h2") = true ∧
      get_header_text n = some "French")) :
    wiktionary_lookup doc word = .error (.err ("Cannot find word " ++ word)) := by
  suffices hf : fetch_french_sections doc = none by
    simp [wiktionary_lookup, hf]
  unfold fetch_french_sections
  cases hq : (dom_query_selector doc "div.mw-parser-output").head? with
  | none => rfl
  | some mw =>
    cases hgc : get_children mw with
    | none => simp [hq, hgc]
    | some body =>
      have hmw : mw ∈ subtreeList doc := by
        have hmem : mw ∈ dom_query_selector doc "div.mw-parser-output" := by
          rcases List.head?_eq_some_iff.mp hq with ⟨ys, hys⟩
          rw [hys]
          simp
        exact (List.mem_filter.mp hmem).1
      have hsplit : split_and_take body "h2" "French" = none := by
        have hfind : (header_splitters body "h2").findIdx?
            (fun idx => get_header_text (body.getD idx (.raw "")) == some "French") = none := by
          rw [List.findIdx?_eq_none_iff]
          intro i hi
          rcases mem_header_splitters.mp hi with ⟨x, hget, hpred⟩
          have hgetD : body.getD i (.raw "") = x := by
            rw [List.getD_eq_getElem?_getD, hget]
            rfl
          rw [hgetD]
          have hx_doc : x ∈ subtreeList doc :=
            child_mem_subtreeList hmw hgc (List.getElem?_mem hget)
          have hnx := h x hx_doc
          rw [beq_eq_false_iff_ne]
          intro hcontra
          exact hnx ⟨hpred, hcontra⟩
        unfold split_and_take split_and_take_with
        rw [hfind]
      rw [Option.some_bind, hgc, Option.some_bind, hsplit]
      rfl


/-- C5 witness: a concrete document whose only `h2` is labelled `German`. -/
theorem claim_C5_witness :
    wiktionary_lookup
      [Node.tag "div" [("class", some "mw-parser-output")]
        [Node.tag "h2" []
          [Node.tag "span" [("class", some "mw-headline")] [Node.raw "German"]],
         Node.tag "p" [] [Node.raw "hallo"]]] "chat" =
      .error (.err ("Cannot find word " ++ "chat")) :=
  claim_C5_missing_language_not_found _ "chat" (by decide)

/-- A heading node of the given level whose visible label is `label`, the
shape Wiktionary uses (`span.mw-headline` wrapping the label text). -/
def sample_heading (lvl label : String) : Node :=
  .tag lvl [] [.tag "span" [("class", some "mw-headline")] [.raw label]]

/-- A region with three sub-headings and interleaved content. -/
def sample_region : List Node :=
  [sample_heading "h3" "A", .raw "x", sample_heading "h4" "B", .raw "y",
   sample_heading "h3" "C"]

/-- C6 witness: the per-pair slice and the tiling equation at a concrete
region (`sample_region` has sub-heading indices 0, 2 and 4). -/
theorem claim_C6_witness :
    (split_at_h3_h4 sample_region)[0]? =
      some (sliceRange sample_region ((h3_h4_splitters sample_region).getD 0 0)
        ((h3_h4_splitters sample_region).getD 1 0)) ∧
    sample_region.take 0 ++ (split_at_h3_h4 sample_region).flatten ++
      sample_region.drop 4 = sample_region :=
  ⟨(claim_C6_split_at_h3_h4_tiling sample_region).2.1 0 (by decide),
   (claim_C6_split_at_h3_h4_tiling sample_region).2.2.2 0 4 (by decide) (by decide)⟩

/-- The document of the adjective-extractor panic: a `French` region whose
`Adjective` subsection's first paragraph has only text children.  The
definition list under the heading is well-formed; only the form-extractor's
`0..children.len() - 1` loop bound is at fault. -/
def adj_panic_doc : List Node :=
  [.tag "div" [("class", some "mw-parser-output")]
    [sample_heading "h2" "French",
     sample_heading "h3" "Adjective",
     .tag "p" [] [.raw "grand"],
     .tag "ol" [] [.tag "li" [] [.raw "big"]],
     sample_heading "h3" "Anagrams"]]

/-- C7: the extraction engine is not total — the claim's own example input
(an adjective subsection whose first paragraph-level node has no element
children) makes `get_adj_form_from_section` panic (`children.len() - 1`
underflows in debug and indexes out of bounds in release), and the panic
propagates out of `wiktionary_lookup`: the code crashes where the spec
promises degradation without crashing. -/
theorem claim_C7_adjective_panic :
    wiktionary_lookup adj_panic_doc "grand" =
      .error (.panic "index out of bounds: children.len() - 1 underflows") ∧
    get_adj_form_from_section [sample_heading "h3" "Adjective", .tag "p" [] [.raw "grand"]] =
      .error (.panic "index out of bounds: children.len() - 1 underflows") := by
  constructor
  · rfl
  · rfl

/-- Whether a subsection's classification parses without error (skipped and
Pronunciation subsections count as parsing: they never abort the loop). -/
def section_parses (sec : List Node) : Bool :=
  match section_meanings sec with
  | .ok _ => true
  | .error _ => false

theorem getLast?_cons_elim {α β : Type} (a : α) (l : List α) (d : β) (f : α → β) :
    ((a :: l).getLast?).elim d f = (l.getLast?).elim (f a) f := by
  cases l with
  | nil => rfl
  | cons b t =>
    rw [List.getLast?_cons_cons]
    rcases hx : (b :: t).getLast? with _ | x
    · exact absurd (List.getLast?_eq_none_iff.mp hx) (by simp)
    · rfl

/-- The loop, run on subsections that all parse: the final accumulators are
the last Pronunciation subsection's parse (the initial accumulator if none
exists) and the concatenation, in document order, of every subsection's
meanings. -/
theorem assemble_sections_ok (secs : List (List Node)) :
    ∀ (pron : Option Pronunciation) (ms : List Meaning),
      (∀ sec ∈ secs, section_parses sec = true) →
      assemble_sections secs pron ms =
        .ok (((secs.filter is_pron_section).getLast?).elim pron get_pr_from_section,
             ms ++ (secs.map section_meanings_ok).flatten) := by
  induction secs with
  | nil => intro pron ms _; simp [assemble_sections]
  | cons sec rest ih =>
    intro pron ms hok
    have hsec := hok sec (by simp)
    have hrest : ∀ s ∈ rest, section_parses s = true :=
      fun s hs => hok s (List.mem_cons_of_mem _ hs)
    simp only [assemble_sections]
    cases hh : get_header_text (sec.head?.getD (.raw "")) with
    | none =>
      have hip : is_pron_section sec = false := by simp [is_pron_section, hh]
      have hso : section_meanings_ok sec = [] := by
        simp [section_meanings_ok, section_meanings, hh]
      simp [List.filter_cons, hip, hso, ih pron ms hrest]
    | some h =>
      by_cases hP : h = "Pronunciation"
      · subst hP
        have hip : is_pron_section sec = true := by simp [is_pron_section, hh]
        have hso : section_meanings_ok sec = [] := by
          simp [section_meanings_ok, section_meanings, hh]
        simp [List.filter_cons, hip, hso, getLast?_cons_elim,
          ih (get_pr_from_section sec) ms hrest]
      · by_cases hN : h = "Noun"
        · subst hN
          have hip : is_pron_section sec = false := by simp [is_pron_section, hh]
          rcases hms2 : get_meanings_from_section sec (.Noun (get_gender_from_section sec))
            with e | ms2
          · have hcon : section_parses sec = false := by
              simp [section_parses, section_meanings, hh, hms2]
            rw [hcon] at hsec
            cases hsec
          · have hso : section_meanings_ok sec = ms2 := by
              simp [section_meanings_ok, section_meanings, hh, hms2]
            simp [List.filter_cons, hip, hso, hms2, ih pron (ms ++ ms2) hrest]
        · by_cases hA : h = "Adjective"
          · subst hA
            have hip : is_pron_section sec = false := by simp [is_pron_section, hh]
            rcases hadj : get_adj_form_from_section sec with e | oadj
            · have hcon : section_parses sec = false := by
                simp [section_parses, section_meanings, hh, hadj]
              rw [hcon] at hsec
              cases hsec
            · cases oadj with
              | none =>
                have hcon : section_parses sec = false := by
                  simp [section_parses, section_meanings, hh, hadj]
                rw [hcon] at hsec
                cases hsec
              | some adj_forms =>
                rcases hms2 : get_meanings_from_section sec adj_forms with e | ms2
                · have hcon : section_parses sec = false := by
                    simp [section_parses, section_meanings, hh, hadj, hms2]
                  rw [hcon] at hsec
                  cases hsec
                · have hso : section_meanings_ok sec = ms2 := by
                    simp [section_meanings_ok, section_meanings, hh, hadj, hms2]
                  simp [List.filter_cons, hip, hso, hadj, hms2, ih pron (ms ++ ms2) hrest]
          · have hip : is_pron_section sec = false := by
              simp [is_pron_section, hh, hP]
            cases hpos : part_of_speech_name h with
            | none =>
              have hso : section_meanings_ok sec = [] := by
                simp [section_meanings_ok, section_meanings, hh, hP, hN, hA, hpos]
              simp [List.filter_cons, hip, hso, hP, hN, hA, hpos, ih pron ms hrest]
            | some pos =>
              rcases hms2 : get_meanings_from_section sec pos with e | ms2
              · have hcon : section_parses sec = false := by
                  simp [section_parses, section_meanings, hh, hP, hN, hA, hpos, hms2]
                rw [hcon] at hsec
                cases hsec
              · have hso : section_meanings_ok sec = ms2 := by
                  simp [section_meanings_ok, section_meanings, hh, hP, hN, hA, hpos, hms2]
                simp [List.filter_cons, hip, hso, hP, hN, hA, hpos, hms2,
                  ih pron (ms ++ ms2) hrest]

/-- If the loop finishes with `ok`, every subsection parsed. -/
theorem assemble_sections_parses (secs : List (List Node)) :
    ∀ (pron : Option Pronunciation) (ms : List Meaning)
      (pm : Option Pronunciation × List Meaning),
      assemble_sections secs pron ms = .ok pm →
      ∀ sec ∈ secs, section_parses sec = true := by
  induction secs with
  | nil => intro pron ms pm _ s hs; cases hs
  | cons sec rest ih =>
    intro pron ms pm hres s hs
    simp only [assemble_sections] at hres
    cases hh : get_header_text (sec.head?.getD (.raw "")) with
    | none =>
      rw [hh] at hres
      rcases List.mem_cons.mp hs with rfl | hs2
      · simp [section_parses, section_meanings, hh]
      · exact ih pron ms pm hres s hs2
    | some h =>
      rw [hh] at hres
      by_cases hP : h = "Pronunciation"
      · subst hP
        rcases List.mem_cons.mp hs with rfl | hs2
        · simp [section_parses, section_meanings, hh]
        · exact ih (get_pr_from_section sec) ms pm hres _ hs2
      · by_cases hN : h = "Noun"
        · subst hN
          rcases hms2 : get_meanings_from_section sec (.Noun (get_gender_from_section sec))
            with e | ms2
          · rw [hms2] at hres
            simp at hres
          · rw [hms2] at hres
            rcases List.mem_cons.mp hs with rfl | hs2
            · simp [section_parses, section_meanings, hh, hms2]
            · exact ih pron (ms ++ ms2) pm hres s hs2
        · by_cases hA : h = "Adjective"
          · subst hA
            rcases hadj : get_adj_form_from_section sec with e | oadj
            · rw [hadj] at hres
              simp at hres
            · cases oadj with
              | none =>
                rw [hadj] at hres
                simp at hres
              | some adj_forms =>
                have hres2 : (match get_meanings_from_section sec adj_forms with
                    | Except.error e => Except.error e
                    | Except.ok ms2 => assemble_sections rest pron (ms ++ ms2)) =
                    Except.ok pm := by
                  rw [hadj] at hres
                  exact hres
                rcases hms2 : get_meanings_from_section sec adj_forms with e | ms2
                · rw [hms2] at hres2
                  simp at hres2
                · rw [hms2] at hres2
                  rcases List.mem_cons.mp hs with rfl | hs2
                  · simp [section_parses, section_meanings, hh, hadj, hms2]
                  · exact ih pron (ms ++ ms2) pm hres2 s hs2
          · simp only [beq_iff_eq] at hres
            rw [if_neg hP, if_neg hN, if_neg hA] at hres
            cases hpos : part_of_speech_name h with
            | none =>
              rw [hpos] at hres
              rcases List.mem_cons.mp hs with rfl | hs2
              · simp [section_parses, section_meanings, hh, hP, hN, hA, hpos]
              · exact ih pron ms pm hres s hs2
            | some pos =>
              have hres2 : (match get_meanings_from_section sec pos with
                  | Except.error e => Except.error e
                  | Except.ok ms2 => assemble_sections rest pron (ms ++ ms2)) =
                  Except.ok pm := by
                rw [hpos] at hres
                exact hres
              rcases hms2 : get_meanings_from_section sec pos with e | ms2
              · rw [hms2] at hres2
                simp at hres2
              · rw [hms2] at hres2
                rcases List.mem_cons.mp hs with rfl | hs2
                · simp [section_parses, section_meanings, hh, hP, hN, hA, hpos, hms2]
                · exact ih pron (ms ++ ms2) pm hres2 s hs2

/-- A document whose `French` region holds a parsing `Verb` subsection and
a `Noun` subsection with no ordered list. -/
def c1_mixed_doc : List Node :=
  [.tag "div" [("class", some "mw-parser-output")]
    [sample_heading "h2" "French",
     sample_heading "h3" "Verb",
     .tag "ol" [] [.tag "li" [] [.raw "to do"]],
     sample_heading "h3" "Noun",
     .tag "p" [] [.raw "x"],
     sample_heading "h3" "Anagrams"]]

/-- C1 counterexample: one subsection's meaning-parser failure aborts the
whole lookup.  In `c1_mixed_doc` the first subsection (`Verb`) parses, the
second (`Noun`, no `<ol>`) fails, and `wiktionary_lookup` returns the
error instead of a `Word` carrying the `Verb` meanings: the `?` operator
on `get_meanings_from_section` propagates the failure out of the loop. -/
theorem claim_C1_counterexample :
    wiktionary_lookup c1_mixed_doc "faire" = .error (.err "Cannot find <ol>") ∧
    ((fetch_french_sections c1_mixed_doc).getD []).length = 2 ∧
    section_parses (((fetch_french_sections c1_mixed_doc).getD []).getD 0 []) = true :=
  ⟨rfl, rfl, rfl⟩

/-- C1 (amended): only the failures surfaced as `Option.none` are isolated.
When every recognized part-of-speech subsection's meaning parser succeeds,
the lookup returns a `Word` regardless of how many Pronunciation
subsections fail to parse or gender extractions come up empty — those
failures never abort the lookup, and each successful subsection's meanings
are all carried in the result. -/
theorem claim_C1_optional_failures_isolated (doc : List Node) (w : String)
    (sections : List (List Node)) (hf : fetch_french_sections doc = some sections)
    (hok : ∀ sec ∈ sections, section_parses sec = true) :
    ∃ word, wiktionary_lookup doc w = .ok word ∧
      word.meanings = (sections.map section_meanings_ok).flatten ∧
      word.pronunciation =
        ((sections.filter is_pron_section).getLast?).elim none get_pr_from_section := by
  refine ⟨⟨w, "https://en.wiktionary.org/wiki/" ++ w ++ "#French",
    ((sections.filter is_pron_section).getLast?).elim none get_pr_from_section,
    (sections.map section_meanings_ok).flatten⟩, ?_, rfl, rfl⟩
  simp only [wiktionary_lookup]
  rw [hf]
  show (match assemble_sections sections none [] with
    | Except.error e => Except.error e
    | Except.ok pm =>
      Except.ok (⟨w, "https://en.wiktionary.org/wiki/" ++ w ++ "#French", pm.1, pm.2⟩ : Word)) = _
  rw [assemble_sections_ok sections none [] hok]
  rfl

/-- A document whose Pronunciation subsection fails to parse (no `ul`)
while its `Verb` subsection parses. -/
def pron_fail_doc : List Node :=
  [.tag "div" [("class", some "mw-parser-output")]
    [sample_heading "h2" "French",
     sample_heading "h3" "Pronunciation",
     .tag "p" [] [.raw "no audio today"],
     sample_heading "h3" "Verb",
     .tag "ol" [] [.tag "li" [] [.raw "to do"]],
     sample_heading "h3" "Anagrams"]]

/-- C1 witness: the amended claim at `pron_fail_doc`: the failed
Pronunciation sibling does not stop the `Verb` meanings. -/
theorem claim_C1_witness :
    ∃ word, wiktionary_lookup pron_fail_doc "faire" = .ok word ∧
      word.meanings =
        (((fetch_french_sections pron_fail_doc).getD []).map section_meanings_ok).flatten ∧
      word.pronunciation =
        (((((fetch_french_sections pron_fail_doc).getD []).filter
          is_pron_section)).getLast?).elim none get_pr_from_section :=
  claim_C1_optional_failures_isolated pron_fail_doc "faire" _ rfl (by decide)

/-- A document whose recognized `Noun` subsection has an empty ordered
list. -/
def c2_empty_ol_doc : List Node :=
  [.tag "div" [("class", some "mw-parser-output")]
    [sample_heading "h2" "French",
     sample_heading "h3" "Noun",
     .tag "ol" [] [],
     sample_heading "h3" "Anagrams"]]

/-- C2 counterexample: a recognized part-of-speech subsection does not
guarantee non-empty `meanings`.  `c2_empty_ol_doc` has a `Noun` subsection
whose ordered list has no items: the lookup succeeds with `meanings = []`. -/
theorem claim_C2_counterexample :
    wiktionary_lookup c2_empty_ol_doc "vide" =
      .ok { word := "vide", wiki_link := "https://en.wiktionary.org/wiki/vide#French",
            pronunciation := none, meanings := [] } ∧
    get_header_text
      ((((fetch_french_sections c2_empty_ol_doc).getD []).getD 0 []).head?.getD (.raw "")) =
      some "Noun" :=
  ⟨rfl, rfl⟩

/-- C2 (amended): whenever the lookup succeeds, `meanings` is exactly the
concatenation, in subsection document order, of each subsection's parsed
meanings; it is non-empty exactly as soon as some subsection contributes a
meaning (an empty or all-unparseable ordered list contributes none). -/
theorem claim_C2_meanings_in_document_order (doc : List Node) (w : String) (word : Word)
    (sections : List (List Node)) (hf : fetch_french_sections doc = some sections)
    (hok : wiktionary_lookup doc w = .ok word) :
    word.meanings = (sections.map section_meanings_ok).flatten ∧
    ((∃ sec ∈ sections, section_meanings_ok sec ≠ []) → word.meanings ≠ []) := by
  simp only [wiktionary_lookup] at hok
  rw [hf] at hok
  have hok' : (match assemble_sections sections none [] with
      | Except.error e => Except.error e
      | Except.ok pm =>
        Except.ok (⟨w, "https://en.wiktionary.org/wiki/" ++ w ++ "#French",
          pm.1, pm.2⟩ : Word)) = Except.ok word := hok
  rcases hassem : assemble_sections sections none [] with e | pm
  · rw [hassem] at hok'
    simp at hok'
  · rw [hassem] at hok'
    have hok2 : Except.ok (⟨w, "https://en.wiktionary.org/wiki/" ++ w ++ "#French",
        pm.1, pm.2⟩ : Word) = Except.ok word := hok' 
    injection hok2 with hword
    have hparses : ∀ sec ∈ sections, section_parses sec = true :=
      assemble_sections_parses sections none [] pm hassem
    have heq := assemble_sections_ok sections none [] hparses
    rw [hassem] at heq
    injection heq with hpm
    have hm : word.meanings = (sections.map section_meanings_ok).flatten := by
      rw [← hword]
      show pm.2 = _
      rw [hpm]
      rfl
    refine ⟨hm, ?_⟩
    rintro ⟨sec, hmem, hne⟩ hcon
    rw [hm] at hcon
    have := List.flatten_eq_nil_iff.mp hcon (section_meanings_ok sec)
      (List.mem_map_of_mem _ hmem)
    exact hne this

/-- C2 witness: order and content of `meanings` at `pron_fail_doc`. -/
theorem claim_C2_witness :
    ({ word := "faire", wiki_link := "https://en.wiktionary.org/wiki/faire#French",
       pronunciation := none,
       meanings := [{ pos := .Verb, meaning := "to do", examples := [] }] } : Word).meanings =
      (((fetch_french_sections pron_fail_doc).getD []).map section_meanings_ok).flatten ∧
    [({ pos := .Verb, meaning := "to do", examples := [] } : Meaning)] ≠ [] :=
  ⟨(claim_C2_meanings_in_document_order pron_fail_doc "faire" _ _ rfl rfl).1,
   (claim_C2_meanings_in_document_order pron_fail_doc "faire"
      { word := "faire", wiki_link := "https://en.wiktionary.org/wiki/faire#French",
        pronunciation := none,
        meanings := [{ pos := .Verb, meaning := "to do", examples := [] }] }
      _ rfl rfl).2 ⟨((fetch_french_sections pron_fail_doc).getD []).getD 1 [],
        List.mem_cons_of_mem _ (List.mem_cons_self _ _), by decide⟩⟩

/-- A document with two Pronunciation subsections: the first parses, the
second does not. -/
def pron_two_doc : List Node :=
  [.tag "div" [("class", some "mw-parser-output")]
    [sample_heading "h2" "French",
     sample_heading "h3" "Pronunciation",
     .tag "ul" [] [.tag "li" []
       [.tag "span" [("class", some "IPA")] [.raw "ipa1"],
        .tag "audio" [] [.tag "source" [("src", some "//x.ogg")] []]]],
     sample_heading "h3" "Pronunciation",
     .tag "p" [] [.raw "nothing"],
     sample_heading "h3" "Verb",
     .tag "ol" [] [.tag "li" [] [.raw "to go"]],
     sample_heading "h3" "Anagrams"]]

/-- C10: every Pronunciation subsection overwrites the accumulator with its
own parse result, so a successful lookup's `pronunciation` is exactly the
parse of the last Pronunciation subsection (`none` when there is none or
when that last parse fails, even if an earlier one succeeded). -/
theorem claim_C10_pronunciation_last_write_wins (doc : List Node) (w : String) (word : Word)
    (sections : List (List Node)) (hf : fetch_french_sections doc = some sections)
    (hok : wiktionary_lookup doc w = .ok word) :
    word.pronunciation =
      ((sections.filter is_pron_section).getLast?).elim none get_pr_from_section := by
  simp only [wiktionary_lookup] at hok
  rw [hf] at hok
  have hok' : (match assemble_sections sections none [] with
      | Except.error e => Except.error e
      | Except.ok pm =>
        Except.ok (⟨w, "https://en.wiktionary.org/wiki/" ++ w ++ "#French",
          pm.1, pm.2⟩ : Word)) = Except.ok word := hok
  rcases hassem : assemble_sections sections none [] with e | pm
  · rw [hassem] at hok'
    simp at hok'
  · rw [hassem] at hok'
    have hok2 : Except.ok (⟨w, "https://en.wiktionary.org/wiki/" ++ w ++ "#French",
        pm.1, pm.2⟩ : Word) = Except.ok word := hok' 
    injection hok2 with hword
    have hparses : ∀ sec ∈ sections, section_parses sec = true :=
      assemble_sections_parses sections none [] pm hassem
    have heq := assemble_sections_ok sections none [] hparses
    rw [hassem] at heq
    injection heq with hpm
    rw [← hword]
    show pm.1 = _
    rw [hpm]

/-- C10 witness: at `pron_two_doc` the earlier Pronunciation subsection
parses, the later one fails, and the resulting `Word` has no
pronunciation. -/
theorem claim_C10_witness :
    ({ word := "aller", wiki_link := "https://en.wiktionary.org/wiki/aller#French",
       pronunciation := none,
       meanings := [{ pos := .Verb, meaning := "to go", examples := [] }] } : Word).pronunciation =
      (((((fetch_french_sections pron_two_doc).getD []).filter
        is_pron_section)).getLast?).elim none get_pr_from_section ∧
    get_pr_from_section (((fetch_french_sections pron_two_doc).getD []).getD 0 []) =
      some { ipa := "ipa1", audio_url := "https://x.ogg" } :=
  ⟨claim_C10_pronunciation_last_write_wins pron_two_doc "aller" _ _ rfl rfl, rfl⟩

/-- C8: gender extraction characterised.  A gender is produced exactly when
the first paragraph-level node exists, it has a first `abbr` descendant,
and that abbreviation's verbatim text is `m` (Masculine) or `f` (Feminine);
in every other case — no paragraph, no abbreviation, nested markup, any
other text — the result is `none`, and no third value exists. -/
theorem claim_C8_gender_characterisation (sec : List Node) (g : NounGender) :
    get_gender_from_section sec = some g ↔
      ∃ p a, find_first_node_by_name sec "p" = some p ∧
        query_select_first p "abbr" = some a ∧
        ((get_immediate_text a = some "m" ∧ g = .Masculine) ∨
         (get_immediate_text a = some "f" ∧ g = .Feminine)) := by
  constructor
  · intro h
    unfold get_gender_from_section at h
    rw [Option.bind_eq_some] at h
    obtain ⟨p, hp, h⟩ := h
    rw [Option.bind_eq_some] at h
    obtain ⟨a, ha, h⟩ := h
    refine ⟨p, a, hp, ha, ?_⟩
    cases ht : get_immediate_text a with
    | none =>
      rw [ht] at h
      cases h
    | some s =>
      rw [ht] at h
      by_cases hm : s = "m"
      · subst hm
        have h2 : (if (("m" : String) == "m") = true then some NounGender.Masculine
            else if (("m" : String) == "f") = true then some NounGender.Feminine
            else none) = some g := h
        rw [if_pos (by decide)] at h2
        exact Or.inl ⟨rfl, by simpa using h2.symm⟩
      · by_cases hf2 : s = "f"
        · subst hf2
          have h2 : (if (("f" : String) == "m") = true then some NounGender.Masculine
              else if (("f" : String) == "f") = true then some NounGender.Feminine
              else none) = some g := h
          rw [if_neg (by decide), if_pos (by decide)] at h2
          exact Or.inr ⟨rfl, by simpa using h2.symm⟩
        · simp [hm, hf2] at h
  · rintro ⟨p, a, hp, ha, hcase⟩
    unfold get_gender_from_section
    rw [hp, Option.some_bind, ha, Option.some_bind]
    rcases hcase with ⟨ht, rfl⟩ | ⟨ht, rfl⟩
    · rw [ht]
      rfl
    · rw [ht]
      rfl

/-- A noun subsection whose first paragraph marks the noun masculine. -/
def masculine_noun_sec : List Node :=
  [sample_heading "h3" "Noun", .tag "p" [] [.tag "abbr" [] [.raw "m"]]]

/-- C8 witness: the characterisation applied at a concrete subsection. -/
theorem claim_C8_witness :
    get_gender_from_section masculine_noun_sec = some .Masculine :=
  (claim_C8_gender_characterisation masculine_noun_sec .Masculine).mpr
    ⟨.tag "p" [] [.tag "abbr" [] [.raw "m"]], .tag "abbr" [] [.raw "m"],
     rfl, rfl, Or.inl ⟨rfl, rfl⟩⟩

/-- C9: pronunciation extraction is all-or-nothing.  A record is produced
exactly when the first `ul` after the heading exists and contains both an
IPA span with verbatim text and a `source` element carrying a valued `src`
attribute; the record then holds both fields, the transcription and the
protocol-completed audio URL.  If either piece is missing the result is
`none` — a record with only one field cannot be produced. -/
theorem claim_C9_pronunciation_all_or_nothing (sec : List Node) (pr : Pronunciation) :
    get_pr_from_section sec = some pr ↔
      ∃ ul ipa_node s src_node v,
        find_first_node_by_name (sec.drop 1) "ul" = some ul ∧
        query_select_first ul "span.IPA" = some ipa_node ∧
        get_immediate_text ipa_node = some s ∧
        query_select_first ul "source" = some src_node ∧
        src_node.isTag = true ∧
        src_node.attrGet "src" = some (some v) ∧
        pr = ⟨s, "https:" ++ v⟩ := by
  constructor
  · intro h
    unfold get_pr_from_section at h
    rw [Option.bind_eq_some] at h
    obtain ⟨ul, hul, h⟩ := h
    rw [Option.bind_eq_some] at h
    obtain ⟨ipa_node, hipa, h⟩ := h
    rw [Option.bind_eq_some] at h
    obtain ⟨s, hs, h⟩ := h
    rw [Option.bind_eq_some] at h
    obtain ⟨src_node, hsrc, h⟩ := h
    cases htag : src_node.isTag with
    | false =>
      rw [htag] at h
      cases h
    | true =>
      rw [htag] at h
      rw [if_pos rfl] at h
      rw [Option.bind_eq_some] at h
      obtain ⟨msrc, hmsrc, h⟩ := h
      rw [Option.bind_eq_some] at h
      obtain ⟨v, hv, h⟩ := h
      refine ⟨ul, ipa_node, s, src_node, v, hul, hipa, hs, hsrc, htag, ?_, ?_⟩
      · rw [hmsrc, hv]
      · cases h
        rfl
  · rintro ⟨ul, ipa_node, s, src_node, v, hul, hipa, hs, hsrc, htag, hsv, rfl⟩
    unfold get_pr_from_section
    rw [hul, Option.some_bind, hipa, Option.some_bind, hs, Option.some_bind,
      hsrc, Option.some_bind, htag, if_pos rfl, hsv, Option.some_bind, Option.some_bind]

/-- A Pronunciation subsection carrying both an IPA span and an audio
source. -/
def full_pron_sec : List Node :=
  [sample_heading "h3" "Pronunciation",
   .tag "ul" [] [.tag "li" []
     [.tag "span" [("class", some "IPA")] [.raw "ipa1"],
      .tag "audio" [] [.tag "source" [("src", some "//x.ogg")] []]]]]

/-- C9 witness: the characterisation applied at a concrete subsection. -/
theorem claim_C9_witness :
    get_pr_from_section full_pron_sec = some ⟨"ipa1", "https://x.ogg"⟩ :=
  (claim_C9_pronunciation_all_or_nothing full_pron_sec ⟨"ipa1", "https://x.ogg"⟩).mpr
    ⟨.tag "ul" [] [.tag "li" []
       [.tag "span" [("class", some "IPA")] [.raw "ipa1"],
        .tag "audio" [] [.tag "source" [("src", some "//x.ogg")] []]]],
     .tag "span" [("class", some "IPA")] [.raw "ipa1"], "ipa1",
     .tag "source" [("src", some "//x.ogg")] [], "//x.ogg",
     rfl, rfl, rfl, rfl, rfl, rfl, rfl⟩

end WikiLookup
